import Mathlib

/-!
Shallow embedding of `src/shuffle.c`.

The program has three layers:

* `secure_random_bit` — a buffered entropy source: a static buffer of 32-bit
  words refilled by block reads from `/dev/urandom`; one bit is handed out per
  call (least-significant bit first, shifting the current word right).
  We model its state explicitly (`EntropyState`) and model the external reads
  as a list of `ReadEvent`s (an open failure, or a read returning `rv` bytes
  and the buffer contents).  `exit(1)` is modelled by the `fatal` constructor.

* `secure_random max` — growing-width rejection sampling over the bit stream.
  Both of its loops consume exactly one bit per iteration, so we embed it as a
  structurally recursive function over a finite list of bits; running out of
  bits is the `needBits` result (the infinite-stream behaviour is recovered by
  quantifying over prefixes of a stream `Nat → Bool`).
  `uint32_t` arithmetic is `Nat` arithmetic with `% U32` exactly where the C
  operations can overflow (`rmax <<= 1`); `r |= rmax` and `r >>= 1` cannot
  leave `[0, 2^32)` when their operands are below `2^32`.

* `shuffle_deck` — Fisher-Yates over a 52-card array, drawing
  `j = secure_random (i+1)` for `i = 51, 50, ..., 1` and swapping `deck[i]`
  with `deck[j]`.  The deck is modelled as a `List Card`.
-/

namespace CardServer

def BUFSZ : Nat := 256

def MAX_RAND_BITS : Nat := 28

def WORD_BYTES : Nat := 4

def WORD_BITS : Nat := 32

/-- `uint32_t` modulus. -/
def U32 : Nat := 2 ^ 32

/-- Result of a `secure_random` call over a finite list of entropy bits:
`fatal` models `exit(1)`, `needBits` means the finite bit list was exhausted,
`ok v rest` is a normal return of `v` with `rest` the unconsumed bits. -/
inductive SampleResult where
  | fatal : SampleResult
  | needBits : SampleResult
  | ok (val : Nat) (rest : List Bool) : SampleResult
deriving DecidableEq, Repr

/-- First loop of `secure_random`:
`while (rmax < max) { if (secure_random_bit() == 1) r |= rmax; rmax <<= 1; }`.
One bit is consumed per iteration; an exhausted bit list gives `none`. -/
def loop1 (max : Nat) : List Bool → Nat → Nat → Option (Nat × Nat × List Bool)
  | [], r, rmax => if rmax < max then none else some (r, rmax, [])
  | b :: rest, r, rmax =>
      if rmax < max then
        loop1 max rest (if b then r ||| rmax else r) ((rmax <<< 1) % U32)
      else some (r, rmax, b :: rest)

/-- Second loop of `secure_random` (rejection loop):
`while (rmax - defect <= r) { if (bit) r |= rmax;
  if (rmax < (1<<MAX_RAND_BITS)) { rmax <<= 1; defect = rmax % max; }
  else r >>= 1; }`. -/
def loop2 (max : Nat) : List Bool → Nat → Nat → Nat → Option (Nat × Nat × List Bool)
  | [], r, rmax, defect =>
      if rmax - defect ≤ r then none else some (r, rmax, [])
  | b :: rest, r, rmax, defect =>
      if rmax - defect ≤ r then
        if rmax < 1 <<< MAX_RAND_BITS then
          loop2 max rest (if b then r ||| rmax else r)
            ((rmax <<< 1) % U32) (((rmax <<< 1) % U32) % max)
        else
          loop2 max rest ((if b then r ||| rmax else r) >>> 1) rmax defect
      else some (r, rmax, b :: rest)

/-- `secure_random` from `src/shuffle.c`, over a finite list of entropy bits:
fails fatally on `max == 0`, otherwise grows `rmax` to at least `max`,
rejects biased candidates, and returns `r / (rmax / max)`. -/
def secure_random (max : Nat) (bits : List Bool) : SampleResult :=
  if max = 0 then .fatal
  else
    match loop1 max bits 0 1 with
    | none => .needBits
    | some (r, rmax, bits1) =>
      match loop2 max bits1 r rmax (rmax % max) with
      | none => .needBits
      | some (r2, rmax2, bits2) => .ok (r2 / (rmax2 / max)) bits2

/-- All bit lists of length `n` (used to count outcomes of `secure_random`
over every equally-likely entropy prefix of a fixed length). -/
def allBitLists : Nat → List (List Bool)
  | 0 => [[]]
  | n + 1 => (allBitLists n).map (List.cons false) ++ (allBitLists n).map (List.cons true)

/-- Number of length-`L` entropy prefixes on which `secure_random max`
returns within those bits with output value `v`. -/
def countOut (max L v : Nat) : Nat :=
  (allBitLists L).countP fun bs =>
    match secure_random max bs with
    | .ok w _ => w == v
    | _ => false

/-- Number of length-`L` entropy prefixes on which `secure_random max`
has not yet returned after consuming all `L` bits. -/
def countUnhalted (max L : Nat) : Nat :=
  (allBitLists L).countP fun bs =>
    match secure_random max bs with
    | .needBits => true
    | _ => false

/-- Card as in the source: a suit character and a rank character. -/
structure Card where
  suit : Char
  rank : Char
deriving DecidableEq, Repr, Inhabited

def DECK_SIZE : Nat := 52

/-- `init_deck` from the source. -/
def init_deck : List Card :=
  (List.range DECK_SIZE).map fun i =>
    { suit := (['S', 'H', 'D', 'C']).getD (i / 13) 'S',
      rank := (['A', '2', '3', '4', '5', '6', '7', '8', '9', 'T', 'J', 'Q', 'K']).getD (i % 13) 'A' }

/-- The three-assignment swap of `deck[i]` and `deck[j]` from `shuffle_deck`. -/
def swapL (deck : List Card) (i j : Nat) : List Card :=
  (deck.set i (deck.getD j default)).set j (deck.getD i default)

/-- Result of `shuffle_deck` over a finite list of entropy bits. -/
inductive ShuffleResult where
  | fatal : ShuffleResult
  | needBits : ShuffleResult
  | ok (deck : List Card) (rest : List Bool) : ShuffleResult
deriving DecidableEq, Repr

/-- The loop of `shuffle_deck`: the argument `i` here is the C loop variable,
processed from `DECK_SIZE - 1` down to `1`; `i = 0` means the loop is done.
Each iteration draws `j = secure_random (i + 1)` and swaps `deck[i]`, `deck[j]`. -/
def shuffleFrom : Nat → List Card → List Bool → ShuffleResult
  | 0, deck, bits => .ok deck bits
  | i + 1, deck, bits =>
    match secure_random (i + 2) bits with
    | .fatal => .fatal
    | .needBits => .needBits
    | .ok j rest => shuffleFrom i (swapL deck (i + 1) j) rest

/-- `shuffle_deck` from the source. -/
def shuffle_deck (deck : List Card) (bits : List Bool) : ShuffleResult :=
  shuffleFrom (DECK_SIZE - 1) deck bits

/-- Ghost mirror of `shuffleFrom` that only counts how many draw-and-swap
steps are performed on a successful run. -/
def shuffleDraws : Nat → List Card → List Bool → Option Nat
  | 0, _, _ => some 0
  | i + 1, deck, bits =>
    match secure_random (i + 2) bits with
    | .ok j rest => (shuffleDraws i (swapL deck (i + 1) j) rest).map (· + 1)
    | _ => none

/-- State of the static entropy buffer of `secure_random_bit`:
the word buffer, the number of valid words of the last read (`max_winx`),
the current word index (`winx`) and the bit count within it (`bcnt`). -/
structure EntropyState where
  rand_buf : List Nat
  max_winx : Nat
  winx : Nat
  bcnt : Nat
deriving DecidableEq, Repr

/-- One interaction with `/dev/urandom` on a refill: either the `open` fails,
or a `read` returns `rv` bytes (`rv : Int`, as `ssize_t`; `-1` on error) and
the word contents `data` of the buffer after the read. -/
inductive ReadEvent where
  | openFail : ReadEvent
  | readData (rv : Int) (data : List Nat) : ReadEvent
deriving DecidableEq, Repr

/-- Result of one `secure_random_bit` call: `fatal` models `exit(1)`,
`noSource` means the modelled event list was exhausted, `ok bit st src` is a
normal return with the new buffer state and the remaining read events. -/
inductive BitResult where
  | fatal : BitResult
  | noSource : BitResult
  | ok (bit : Nat) (st : EntropyState) (src : List ReadEvent) : BitResult
deriving DecidableEq, Repr

/-- The non-refill part of `secure_random_bit`: take the lowest bit of the
current word (`rand_buf[winx] & 1`), shift the word right by one, increment
`bcnt`, and advance `winx` when a full word has been consumed. -/
def emitBit (st : EntropyState) (src : List ReadEvent) : BitResult :=
  if st.bcnt + 1 = WORD_BITS then
    .ok (st.rand_buf.getD st.winx 0 &&& 1)
      { rand_buf := st.rand_buf.set st.winx (st.rand_buf.getD st.winx 0 >>> 1),
        max_winx := st.max_winx, winx := st.winx + 1, bcnt := 0 } src
  else
    .ok (st.rand_buf.getD st.winx 0 &&& 1)
      { rand_buf := st.rand_buf.set st.winx (st.rand_buf.getD st.winx 0 >>> 1),
        max_winx := st.max_winx, winx := st.winx, bcnt := st.bcnt + 1 } src

/-- Buffer state right after a successful refill read of `rv` bytes:
`max_winx = rv / sizeof(uint32_t)`, indices reset to zero. -/
def refillState (rv : Int) (data : List Nat) : EntropyState :=
  { rand_buf := data, max_winx := rv.toNat / WORD_BYTES, winx := 0, bcnt := 0 }

/-- `secure_random_bit` from the source: refill (consuming the next read
event) exactly when `winx == max_winx`; `open` failure or a read shorter than
one word is fatal; otherwise emit the next bit of the current word. -/
def secure_random_bit (st : EntropyState) (src : List ReadEvent) : BitResult :=
  if st.winx = st.max_winx then
    match src with
    | [] => .noSource
    | ReadEvent.openFail :: _ => .fatal
    | ReadEvent.readData rv data :: rest =>
      if rv < (WORD_BYTES : Int) then .fatal
      else emitBit (refillState rv data) rest
  else emitBit st src

/-- Call `secure_random_bit` `n` times, collecting the returned bits;
`none` if any call is fatal or runs out of modelled read events. -/
def consumeBits : Nat → EntropyState → List ReadEvent → Option (List Nat × EntropyState × List ReadEvent)
  | 0, st, src => some ([], st, src)
  | n + 1, st, src =>
    match secure_random_bit st src with
    | .ok b st1 src1 =>
      match consumeBits n st1 src1 with
      | some (bs, st2, src2) => some (b :: bs, st2, src2)
      | none => none
    | _ => none

/-- The `k`-th bit of a word buffer in the order the C code emits them:
bit `k % 32` of word `k / 32`. -/
def bitAt (words : List Nat) (k : Nat) : Nat :=
  ((words.getD (k / WORD_BITS) 0) >>> (k % WORD_BITS)) &&& 1

/-- The first `n` bits of a word buffer in emission order. -/
def bitSeq (words : List Nat) (n : Nat) : List Nat :=
  (List.range n).map (bitAt words)

/-- `n` bits of an infinite bit stream starting at position `p`. -/
def streamTake (s : Nat → Bool) (p n : Nat) : List Bool :=
  (List.range n).map fun i => s (p + i)

/-- Invariant of the buffer state after `k` of the `32 * m` bits of the
current block (original word contents `words`) have been emitted:
`winx`/`bcnt` track `k`, the current word has been shifted `k % 32` times,
and the words not yet reached are untouched. -/
def BufInv (words : List Nat) (m k : Nat) (st : EntropyState) : Prop :=
  st.max_winx = m ∧ st.winx = k / 32 ∧ st.bcnt = k % 32 ∧
  st.rand_buf.length = words.length ∧
  ∀ j, k / 32 ≤ j →
    st.rand_buf.getD j 0 =
      if j = k / 32 then words.getD j 0 >>> (k % 32) else words.getD j 0

/-! ### Helper lemmas about the sampler loops -/

/-- If `rmax` already reached `max`, the first loop returns at once,
whatever the remaining bits are. -/
theorem loop1_done (max : Nat) (bits : List Bool) (r rmax : Nat) (h : ¬ rmax < max) :
    loop1 max bits r rmax = some (r, rmax, bits) := by
  cases bits <;> simp [loop1, h]

/-- On a successful exit of the first loop, `rmax` has reached `max`. -/
theorem loop1_ok_ge (max : Nat) :
    ∀ (bits : List Bool) (r rmax r' rmax' : Nat) (rest : List Bool),
      loop1 max bits r rmax = some (r', rmax', rest) → max ≤ rmax' := by
  intro bits
  induction bits with
  | nil =>
    intro r rmax r' rmax' rest h
    simp only [loop1] at h
    split at h
    · exact absurd h (by simp)
    · rename_i hc
      obtain ⟨-, rfl, -⟩ := by simpa using h
      omega
  | cons b bs ih =>
    intro r rmax r' rmax' rest h
    simp only [loop1] at h
    split at h
    · exact ih _ _ _ _ _ h
    · rename_i hc
      obtain ⟨-, rfl, -⟩ := by simpa using h
      omega

/-- Invariant of the rejection loop: with `defect = rmax % max` and
`max ≤ rmax` at entry, a successful exit satisfies `max ≤ rmax'` and leaves
the accepted candidate strictly below the unbiased zone boundary. -/
theorem loop2_ok_bound (max : Nat) (h1 : 0 < max) :
    ∀ (bits : List Bool) (r rmax r2 rmax2 : Nat) (rest : List Bool),
      max ≤ rmax →
      loop2 max bits r rmax (rmax % max) = some (r2, rmax2, rest) →
      max ≤ rmax2 ∧ r2 < rmax2 - rmax2 % max := by
  intro bits
  induction bits with
  | nil =>
    intro r rmax r2 rmax2 rest hle h
    simp only [loop2] at h
    split at h
    · exact absurd h (by simp)
    · rename_i hc
      obtain ⟨rfl, rfl, -⟩ := by simpa using h
      exact ⟨hle, by omega⟩
  | cons b bs ih =>
    intro r rmax r2 rmax2 rest hle h
    simp only [loop2] at h
    split at h
    · split at h
      · rename_i hcap
        have hsh : rmax <<< 1 = 2 * rmax := by rw [Nat.shiftLeft_eq]; ring
        have hcap' : rmax < 2 ^ 28 := by
          simpa [MAX_RAND_BITS, Nat.shiftLeft_eq] using hcap
        have hmod : (rmax <<< 1) % U32 = 2 * rmax := by
          rw [hsh]
          exact Nat.mod_eq_of_lt (by simp only [U32]; omega)
        rw [hmod] at h
        exact ih _ _ _ _ _ (by omega) h
      · exact ih _ _ _ _ _ hle h
    · rename_i hc
      obtain ⟨rfl, rfl, -⟩ := by simpa using h
      exact ⟨hle, by omega⟩

/-- The final division maps an accepted candidate into `[0, max)`. -/
theorem accepted_div_lt (max rmax r : Nat) (h1 : 0 < max) (hle : max ≤ rmax)
    (hr : r < rmax - rmax % max) : r / (rmax / max) < max := by
  have hq : 0 < rmax / max := Nat.div_pos hle h1
  rw [Nat.div_lt_iff_lt_mul hq]
  have hdm := Nat.div_add_mod rmax max
  have : rmax - rmax % max = max * (rmax / max) := by omega
  calc r < rmax - rmax % max := hr
    _ = max * (rmax / max) := this

/-- Any normal return of `secure_random max` lies in `[0, max)`. -/
theorem secure_random_lt (max : Nat) (bits : List Bool) (v : Nat) (rest : List Bool)
    (h1 : 0 < max) (h : secure_random max bits = .ok v rest) : v < max := by
  unfold secure_random at h
  rw [if_neg (by omega)] at h
  split at h
  · exact absurd h (by simp)
  · rename_i r rmax bits1 he1
    split at h
    · exact absurd h (by simp)
    · rename_i r2 rmax2 bits2 he2
      obtain ⟨rfl, rfl⟩ : r2 / (rmax2 / max) = v ∧ bits2 = rest := by simpa using h
      have hge := loop1_ok_ge max bits 0 1 r rmax bits1 he1
      obtain ⟨hge2, hb⟩ := loop2_ok_bound max h1 bits1 r rmax r2 rmax2 bits2 hge he2
      exact accepted_div_lt max rmax2 r2 h1 hge2 hb

/-! ### Claim theorems: trivial range, fatal zero, range postcondition, bias -/

/-- C6: for every entropy state, `secure_random 1` returns `0` and consumes
zero bits — the remaining bit list is exactly the input bit list. -/
theorem secure_random_one (bits : List Bool) : secure_random 1 bits = .ok 0 bits := by
  cases bits <;> rfl

/-- C9: `secure_random 0` fails fatally (models `exit(1)` with a diagnostic)
for every entropy state, never returning a value and never consuming bits. -/
theorem secure_random_zero_fatal (bits : List Bool) : secure_random 0 bits = .fatal := rfl

/-- C2: whenever `secure_random max` (with `max ≥ 1`) returns normally,
the returned value lies in `[0, max)`. -/
theorem secure_random_range (max : Nat) (bits : List Bool) (v : Nat) (rest : List Bool)
    (h1 : 1 ≤ max) (h : secure_random max bits = .ok v rest) : v < max :=
  secure_random_lt max bits v rest h1 h

/-- Witness for C2 at `max = 2`, `bits = [false]`. -/
theorem secure_random_range_witness :
    secure_random 2 [false] = .ok 0 [] ∧ 0 < 2 :=
  ⟨by decide, secure_random_range 2 [false] 0 [] (by decide) (by decide)⟩

/-- C1 (bias): at `max = 3`, over all `2^5` equally likely 5-bit entropy
prefixes, output `1` is produced by 15 prefixes while output `0` (resp. `2`)
is produced by 8, with a single prefix still undecided.  Hence the true
probability of output `1` is at least `15/32` while that of `0` is at most
`9/32`: the sampler is not uniform, contradicting the code's own header
comment and the spec's uniformity contract. -/
theorem secure_random_biased_at_three :
    countOut 3 5 0 = 8 ∧ countOut 3 5 1 = 15 ∧ countOut 3 5 2 = 8 ∧
      countUnhalted 3 5 = 1 ∧
      countOut 3 5 0 + countUnhalted 3 5 < countOut 3 5 1 := by
  decide

/-! ### The width-growing phase (first loop) -/

/-- Running the first loop from a power-of-two `rmax = 2^k`: with
`max ≤ 2^31` and enough bits, it stops at `2^(clog 2 max)`, the smallest
power of two at least `max`, consuming exactly one bit per doubling. -/
theorem loop1_run (max : Nat) (h1 : 1 ≤ max) (h2 : max ≤ 2 ^ 31) :
    ∀ (bits : List Bool) (k r : Nat), r < 2 ^ k → k ≤ Nat.clog 2 max →
      Nat.clog 2 max ≤ k + bits.length →
      ∃ r', r' < 2 ^ Nat.clog 2 max ∧
        loop1 max bits r (2 ^ k) =
          some (r', 2 ^ Nat.clog 2 max, bits.drop (Nat.clog 2 max - k)) := by
  intro bits
  induction bits with
  | nil =>
    intro k r hr hk hlen
    simp only [List.length_nil, Nat.add_zero] at hlen
    have hkk : k = Nat.clog 2 max := le_antisymm hk hlen
    subst hkk
    have hge : ¬ 2 ^ Nat.clog 2 max < max := not_lt.mpr (Nat.le_pow_clog one_lt_two max)
    refine ⟨r, hr, ?_⟩
    simp [loop1, hge]
  | cons b bs ih =>
    intro k r hr hk hlen
    by_cases hlt : 2 ^ k < max
    · have hkc : k < Nat.clog 2 max := (Nat.pow_lt_iff_lt_clog one_lt_two).mp hlt
      have hc31 : Nat.clog 2 max ≤ 31 := by
        calc Nat.clog 2 max ≤ Nat.clog 2 (2 ^ 31) := Nat.clog_mono_right 2 h2
          _ = 31 := Nat.clog_pow 2 31 one_lt_two
      have hmod : (2 ^ k <<< 1) % U32 = 2 ^ (k + 1) := by
        rw [Nat.shiftLeft_eq, pow_one, ← pow_succ]
        exact Nat.mod_eq_of_lt (Nat.pow_lt_pow_right one_lt_two (by omega))
      have h2k : 2 ^ k < 2 ^ (k + 1) := Nat.pow_lt_pow_right one_lt_two (by omega)
      have hr1 : (if b then r ||| 2 ^ k else r) < 2 ^ (k + 1) := by
        cases b
        · simpa using lt_trans hr h2k
        · simpa using Nat.or_lt_two_pow (lt_trans hr h2k) h2k
      obtain ⟨r', hr', hrun⟩ :=
        ih (k + 1) _ hr1 (by omega) (by simp only [List.length_cons] at hlen; omega)
      refine ⟨r', hr', ?_⟩
      simp only [loop1, if_pos hlt, hmod]
      rw [hrun]
      have hsub : Nat.clog 2 max - k = (Nat.clog 2 max - (k + 1)) + 1 := by omega
      rw [hsub, List.drop_succ_cons]
    · have hck : Nat.clog 2 max ≤ k := by
        by_contra hc
        push_neg at hc
        exact hlt ((Nat.pow_lt_iff_lt_clog one_lt_two).mpr hc)
      have hkk : k = Nat.clog 2 max := le_antisymm hk hck
      subst hkk
      refine ⟨r, hr, ?_⟩
      simp [loop1, hlt]

/-- C4 (amended: `max ≤ 2^31`): for `1 ≤ max ≤ 2^31` and enough entropy,
the first loop of `secure_random` terminates, consuming exactly
`clog 2 max` bits (one per doubling); on exit `rmax = 2^(clog 2 max)` is the
smallest power of two at least `max`, and `r < rmax`. -/
theorem loop1_grows_to_min_pow (max : Nat) (bits : List Bool)
    (h1 : 1 ≤ max) (h2 : max ≤ 2 ^ 31) (hlen : Nat.clog 2 max ≤ bits.length) :
    ∃ r, r < 2 ^ Nat.clog 2 max ∧
      loop1 max bits 0 1 = some (r, 2 ^ Nat.clog 2 max, bits.drop (Nat.clog 2 max)) ∧
      max ≤ 2 ^ Nat.clog 2 max ∧
      ∀ j, max ≤ 2 ^ j → 2 ^ Nat.clog 2 max ≤ 2 ^ j := by
  obtain ⟨r, hr, hrun⟩ :=
    loop1_run max h1 h2 bits 0 0 (by simp) (Nat.zero_le _) (by simpa using hlen)
  rw [pow_zero, Nat.sub_zero] at hrun
  refine ⟨r, hr, hrun, Nat.le_pow_clog one_lt_two max, fun j hj => ?_⟩
  apply Nat.pow_le_pow_right (by omega)
  by_contra hc
  push_neg at hc
  exact absurd hj (not_le.mpr ((Nat.pow_lt_iff_lt_clog one_lt_two).mpr hc))

/-- Witness for C4 at `max = 2`, `bits = [true]`: `clog 2 2 = 1`. -/
theorem loop1_grows_to_min_pow_witness :
    (1 ≤ 2 ∧ 2 ≤ 2 ^ 31 ∧ Nat.clog 2 2 ≤ ([true] : List Bool).length) ∧
      ∃ r, r < 2 ^ Nat.clog 2 2 ∧
        loop1 2 [true] 0 1 = some (r, 2 ^ Nat.clog 2 2, ([true] : List Bool).drop (Nat.clog 2 2)) ∧
        2 ≤ 2 ^ Nat.clog 2 2 ∧
        ∀ j, 2 ≤ 2 ^ j → 2 ^ Nat.clog 2 2 ≤ 2 ^ j := by
  have hc2 : Nat.clog 2 2 = 1 := by
    have := Nat.clog_pow 2 1 one_lt_two
    simpa using this
  have hc : Nat.clog 2 2 ≤ ([true] : List Bool).length := by
    rw [hc2]
    simp
  exact ⟨⟨by omega, by norm_num, hc⟩,
    loop1_grows_to_min_pow 2 [true] (by omega) (by norm_num) hc⟩

/-- For every `rmax` that is zero or a power of two up to `2^31`, the first
loop with `max = 2^31 + 1` never exits: `rmax` doubles up to `2^31`, then
overflows to `0` modulo `2^32` and stays there, always below `max`. -/
theorem loop1_overflow_none :
    ∀ (bits : List Bool) (r rmax : Nat),
      (rmax = 0 ∨ ∃ k, k ≤ 31 ∧ rmax = 2 ^ k) →
      loop1 (2 ^ 31 + 1) bits r rmax = none := by
  intro bits
  induction bits with
  | nil =>
    intro r rmax hr
    have hlt : rmax < 2 ^ 31 + 1 := by
      rcases hr with rfl | ⟨k, hk, rfl⟩
      · omega
      · have := Nat.pow_le_pow_right (show 1 ≤ 2 by omega) hk
        omega
    simp only [loop1, if_pos hlt]
  | cons b bs ih =>
    intro r rmax hr
    have hlt : rmax < 2 ^ 31 + 1 := by
      rcases hr with rfl | ⟨k, hk, rfl⟩
      · omega
      · have := Nat.pow_le_pow_right (show 1 ≤ 2 by omega) hk
        omega
    simp only [loop1, if_pos hlt]
    apply ih
    rcases hr with rfl | ⟨k, hk, rfl⟩
    · left
      simp [Nat.shiftLeft_eq]
    · rcases Nat.lt_or_ge k 31 with hk31 | hk31
      · right
        refine ⟨k + 1, by omega, ?_⟩
        rw [Nat.shiftLeft_eq, pow_one, ← pow_succ]
        exact Nat.mod_eq_of_lt (Nat.pow_lt_pow_right one_lt_two (by omega))
      · have hkk : k = 31 := le_antisymm hk hk31
        subst hkk
        left
        rw [Nat.shiftLeft_eq, pow_one, ← pow_succ]
        simp [U32]

/-- C4 counterexample: at `max = 2^31 + 1` (a valid nonzero `uint32_t`),
the first loop of `secure_random` never terminates — no amount of provided
entropy makes it exit (here on the all-zeros stream). -/
theorem loop1_diverges_above_two_pow_31 :
    ¬ ∃ (n r rmax : Nat) (rest : List Bool),
        loop1 (2 ^ 31 + 1) (List.replicate n false) 0 1 = some (r, rmax, rest) := by
  rintro ⟨n, r, rmax, rest, h⟩
  rw [loop1_overflow_none (List.replicate n false) 0 1
    (Or.inr ⟨0, by omega, rfl⟩)] at h
  exact Option.noConfusion h

/-! ### Streams of entropy bits -/

theorem streamTake_nil (s : Nat → Bool) (p : Nat) : streamTake s p 0 = [] := rfl

theorem streamTake_succ (s : Nat → Bool) (p n : Nat) :
    streamTake s p (n + 1) = s p :: streamTake s (p + 1) n := by
  simp only [streamTake, List.range_succ_eq_map, List.map_cons, List.map_map, Nat.add_zero]
  congr 1
  congr 1
  funext i
  simp only [Function.comp_apply]
  congr 1
  omega

theorem streamTake_length (s : Nat → Bool) (p n : Nat) : (streamTake s p n).length = n := by
  simp [streamTake]

theorem streamTake_add (s : Nat → Bool) (p a b : Nat) :
    streamTake s p (a + b) = streamTake s p a ++ streamTake s (p + a) b := by
  simp only [streamTake, List.range_add, List.map_append, List.map_map]
  congr 1
  congr 1
  funext i
  simp only [Function.comp_apply]
  congr 1
  omega

/-- `1 <<< MAX_RAND_BITS` is `2^28`. -/
theorem lt_cap_iff (x : Nat) : (x < 1 <<< MAX_RAND_BITS) ↔ x < 2 ^ 28 := by
  simp [MAX_RAND_BITS, Nat.shiftLeft_eq]

theorem cap_not_lt : ¬ (2 ^ 28 < 1 <<< MAX_RAND_BITS) := by
  rw [lt_cap_iff]
  omega

/-- At the width cap the biased-zone size `2^28 % max` is below `2^27`
whenever `1 ≤ max ≤ 2^28`. -/
theorem cap_defect_lt (max : Nat) (h1 : 1 ≤ max) (h2 : max ≤ 2 ^ 28) :
    2 ^ 28 % max < 2 ^ 27 := by
  have e : (2 : Nat) ^ 28 = 2 * 2 ^ 27 := by ring
  rcases lt_trichotomy max (2 ^ 27) with h | h | h
  · exact lt_trans (Nat.mod_lt _ (by omega)) h
  · subst h
    rw [e, Nat.mul_mod_left]
    positivity
  · have hlt : 2 ^ 28 - max < max := by omega
    have hm : 2 ^ 28 % max = 2 ^ 28 - max := by
      rw [Nat.mod_eq_sub_mod h2]
      exact Nat.mod_eq_of_lt hlt
    omega

/-- Extending the bit list extends a successful `loop1` run unchanged. -/
theorem loop1_append (max : Nat) :
    ∀ (bits ext : List Bool) (r rmax r' rmax' : Nat) (rest : List Bool),
      loop1 max bits r rmax = some (r', rmax', rest) →
      loop1 max (bits ++ ext) r rmax = some (r', rmax', rest ++ ext) := by
  intro bits
  induction bits with
  | nil =>
    intro ext r rmax r' rmax' rest h
    simp only [loop1] at h
    split at h
    · exact absurd h (by simp)
    · rename_i hc
      obtain ⟨rfl, rfl, rfl⟩ := by simpa using h
      simpa using loop1_done max ext r rmax hc
  | cons b bs ih =>
    intro ext r rmax r' rmax' rest h
    simp only [loop1] at h
    simp only [List.cons_append, loop1]
    split at h
    · rename_i hc
      rw [if_pos hc]
      exact ih ext _ _ _ _ _ h
    · rename_i hc
      obtain ⟨rfl, rfl, rfl⟩ := by simpa using h
      rw [if_neg hc]
      simp

/-- A zero bit at the width cap lets the rejection loop accept within one
step: the halved candidate falls below `2^28 - defect`. -/
theorem cap_exit_step (max : Nat) (h1 : 1 ≤ max) (h2 : max ≤ 2 ^ 28) (s : Nat → Bool)
    (p r : Nat) (hr : r < 2 ^ 28) (hsp : s p = false) :
    ∃ n out, loop2 max (streamTake s p n) r (2 ^ 28) (2 ^ 28 % max) = some out := by
  by_cases hrej : 2 ^ 28 - 2 ^ 28 % max ≤ r
  · refine ⟨1, (r >>> 1, 2 ^ 28, []), ?_⟩
    rw [streamTake_succ, streamTake_nil, hsp]
    simp only [loop2, if_pos hrej, if_neg cap_not_lt, Bool.false_eq_true, if_false]
    have hd := cap_defect_lt max h1 h2
    have e : (2 : Nat) ^ 28 = 2 * 2 ^ 27 := by ring
    have hr2 : r >>> 1 < 2 ^ 27 := by
      rw [Nat.shiftRight_eq_div_pow, pow_one]
      omega
    have hacc : ¬ (2 ^ 28 - 2 ^ 28 % max ≤ r >>> 1) := by omega
    rw [if_neg hacc]
  · exact ⟨0, (r, 2 ^ 28, []),
      by rw [streamTake_nil]; simp only [loop2]; rw [if_neg hrej]⟩

/-- At the width cap, any stream containing a zero bit at or after the
current position makes the rejection loop accept within finitely many bits. -/
theorem loop2_cap_exit (max : Nat) (h1 : 1 ≤ max) (h2 : max ≤ 2 ^ 28) (s : Nat → Bool) :
    ∀ (d p r : Nat), r < 2 ^ 28 →
      (∃ q, p ≤ q ∧ q ≤ p + d ∧ s q = false) →
      ∃ n out, loop2 max (streamTake s p n) r (2 ^ 28) (2 ^ 28 % max) = some out := by
  intro d
  induction d with
  | zero =>
    intro p r hr hq
    obtain ⟨q, hpq, hqd, hqf⟩ := hq
    have hqp : q = p := by omega
    subst hqp
    exact cap_exit_step max h1 h2 s q r hr hqf
  | succ d ih =>
    intro p r hr hq
    obtain ⟨q, hpq, hqd, hqf⟩ := hq
    by_cases hrej : 2 ^ 28 - 2 ^ 28 % max ≤ r
    · cases hsp : s p
      · exact cap_exit_step max h1 h2 s p r hr hsp
      · have hq1 : p + 1 ≤ q := by
          rcases Nat.eq_or_lt_of_le hpq with rfl | hlt
          · rw [hsp] at hqf
            exact absurd hqf (by simp)
          · omega
        have hor : r ||| 2 ^ 28 < 2 ^ 29 :=
          Nat.or_lt_two_pow (lt_trans hr (by norm_num)) (by norm_num)
        have hr1 : (r ||| 2 ^ 28) >>> 1 < 2 ^ 28 := by
          rw [Nat.shiftRight_eq_div_pow, pow_one]
          have e : (2 : Nat) ^ 29 = 2 * 2 ^ 28 := by ring
          omega
        obtain ⟨n, out, hrun⟩ := ih (p + 1) _ hr1 ⟨q, hq1, by omega, hqf⟩
        refine ⟨n + 1, out, ?_⟩
        rw [streamTake_succ, hsp]
        simp only [loop2, if_pos hrej, if_neg cap_not_lt, if_true]
        exact hrun
    · exact ⟨0, (r, 2 ^ 28, []),
        by rw [streamTake_nil]; simp only [loop2]; rw [if_neg hrej]⟩

/-- Below the cap the rejection loop doubles `rmax` on every rejected bit,
so after at most `28 - k` steps it is at the cap; combined with
`loop2_cap_exit` this gives termination on every stream with a later zero. -/
theorem loop2_grow_exit (max : Nat) (h1 : 1 ≤ max) (h2 : max ≤ 2 ^ 28) (s : Nat → Bool)
    (hz : ∀ p, ∃ q, p ≤ q ∧ s q = false) :
    ∀ (j p k r : Nat), k + j = 28 → max ≤ 2 ^ k → r < 2 ^ k →
      ∃ n out, loop2 max (streamTake s p n) r (2 ^ k) (2 ^ k % max) = some out := by
  intro j
  induction j with
  | zero =>
    intro p k r hkj hm hr
    have hk : k = 28 := by omega
    subst hk
    obtain ⟨q, hpq, hqf⟩ := hz p
    exact loop2_cap_exit max h1 h2 s (q - p) p r hr ⟨q, hpq, by omega, hqf⟩
  | succ j ih =>
    intro p k r hkj hm hr
    by_cases hrej : 2 ^ k - 2 ^ k % max ≤ r
    · have hklt : 2 ^ k < 1 <<< MAX_RAND_BITS := by
        rw [lt_cap_iff]
        exact Nat.pow_lt_pow_right one_lt_two (by omega)
      have hmod : (2 ^ k <<< 1) % U32 = 2 ^ (k + 1) := by
        rw [Nat.shiftLeft_eq, pow_one, ← pow_succ]
        exact Nat.mod_eq_of_lt (Nat.pow_lt_pow_right one_lt_two (by omega))
      have h2k : 2 ^ k < 2 ^ (k + 1) := Nat.pow_lt_pow_right one_lt_two (by omega)
      have hr1 : (if s p then r ||| 2 ^ k else r) < 2 ^ (k + 1) := by
        cases hsp : s p
        · simpa [hsp] using lt_trans hr h2k
        · simpa [hsp] using Nat.or_lt_two_pow (lt_trans hr h2k) h2k
      obtain ⟨n, out, hrun⟩ :=
        ih (p + 1) (k + 1) _ (by omega) (le_trans hm (le_of_lt h2k)) hr1
      refine ⟨n + 1, out, ?_⟩
      rw [streamTake_succ]
      simp only [loop2, if_pos hrej, if_pos hklt, hmod]
      exact hrun
    · exact ⟨0, (r, 2 ^ k, []),
        by rw [streamTake_nil]; simp only [loop2]; rw [if_neg hrej]⟩

/-- Composing the two loop runs into a `secure_random` return. -/
theorem secure_random_eq_of_loops (max : Nat) (h0 : max ≠ 0) (bits bits1 : List Bool)
    (r rmax r2 rmax2 : Nat) (bits2 : List Bool)
    (hl1 : loop1 max bits 0 1 = some (r, rmax, bits1))
    (hl2 : loop2 max bits1 r rmax (rmax % max) = some (r2, rmax2, bits2)) :
    secure_random max bits = .ok (r2 / (rmax2 / max)) bits2 := by
  unfold secure_random
  rw [if_neg h0]
  simp only [hl1, hl2]

/-- C3 (amended: streams with infinitely many zero bits): for every
`max` in `[1, 2^MAX_RAND_BITS]` and every entropy stream that contains a
zero bit beyond every position, `secure_random max` returns after finitely
many bits — the rejection loop terminates. -/
theorem rejection_loop_terminates (max : Nat) (s : Nat → Bool)
    (h1 : 1 ≤ max) (h2 : max ≤ 2 ^ MAX_RAND_BITS)
    (hz : ∀ p, ∃ q, p ≤ q ∧ s q = false) :
    ∃ n v rest, secure_random max (streamTake s 0 n) = .ok v rest := by
  have h2' : max ≤ 2 ^ 28 := by simpa [MAX_RAND_BITS] using h2
  have h31 : max ≤ 2 ^ 31 := le_trans h2' (by norm_num)
  have hc28 : Nat.clog 2 max ≤ 28 := by
    calc Nat.clog 2 max ≤ Nat.clog 2 (2 ^ 28) := Nat.clog_mono_right 2 h2'
      _ = 28 := Nat.clog_pow 2 28 one_lt_two
  obtain ⟨r0, hr0, hrun1⟩ :=
    loop1_run max h1 h31 (streamTake s 0 (Nat.clog 2 max)) 0 0 (by simp) (Nat.zero_le _)
      (by rw [streamTake_length]; omega)
  rw [pow_zero, Nat.sub_zero] at hrun1
  have hdrop : (streamTake s 0 (Nat.clog 2 max)).drop (Nat.clog 2 max) = [] := by
    have := List.drop_length (streamTake s 0 (Nat.clog 2 max))
    rwa [streamTake_length] at this
  rw [hdrop] at hrun1
  obtain ⟨n, out, hrun2⟩ :=
    loop2_grow_exit max h1 h2' s hz (28 - Nat.clog 2 max) (Nat.clog 2 max)
      (Nat.clog 2 max) r0 (by omega) (Nat.le_pow_clog one_lt_two max) hr0
  obtain ⟨r2, rmax2, rest2⟩ := out
  have happ := loop1_append max (streamTake s 0 (Nat.clog 2 max))
    (streamTake s (Nat.clog 2 max) n) 0 1 r0 (2 ^ Nat.clog 2 max) [] hrun1
  rw [List.nil_append] at happ
  have hsplit : streamTake s 0 (Nat.clog 2 max + n) =
      streamTake s 0 (Nat.clog 2 max) ++ streamTake s (Nat.clog 2 max) n := by
    have := streamTake_add s 0 (Nat.clog 2 max) n
    simpa using this
  refine ⟨Nat.clog 2 max + n, r2 / (rmax2 / max), rest2, ?_⟩
  rw [hsplit]
  exact secure_random_eq_of_loops max (by omega) _ _ _ _ _ _ _ happ hrun2

/-- Witness for C3 at `max = 2` with the all-zeros stream. -/
theorem rejection_loop_terminates_witness :
    (1 ≤ 2 ∧ 2 ≤ 2 ^ MAX_RAND_BITS ∧
      ∀ p : Nat, ∃ q, p ≤ q ∧ (fun _ : Nat => false) q = false) ∧
      ∃ n v rest, secure_random 2 (streamTake (fun _ => false) 0 n) = .ok v rest := by
  refine ⟨⟨by omega, by norm_num [MAX_RAND_BITS], fun p => ⟨p, le_rfl, rfl⟩⟩, ?_⟩
  exact rejection_loop_terminates 2 (fun _ => false) (by omega)
    (by norm_num [MAX_RAND_BITS]) (fun p => ⟨p, le_rfl, rfl⟩)

/-- Powers of two are never divisible by three. -/
theorem two_pow_mod_three (k : Nat) : 2 ^ k % 3 = 1 ∨ 2 ^ k % 3 = 2 := by
  induction k with
  | zero => left; rfl
  | succ k ih =>
    rw [pow_succ, Nat.mul_mod]
    rcases ih with h | h <;> rw [h] <;> simp

/-- Setting the next high bit of an all-ones candidate keeps it all ones. -/
theorem pred_pow_or_pow (k : Nat) : (2 ^ k - 1) ||| 2 ^ k = 2 ^ (k + 1) - 1 := by
  apply Nat.eq_of_testBit_eq
  intro i
  rw [Nat.testBit_or]
  simp only [Nat.testBit_two_pow_sub_one, Nat.testBit_two_pow]
  rcases lt_trichotomy i k with h | h | h
  · have h1 : i < k + 1 := by omega
    simp [h, h1]
  · subst h
    simp
  · have h1 : ¬ i < k := by omega
    have h2 : ¬ (k = i) := by omega
    have h3 : ¬ i < k + 1 := by omega
    simp [h1, h2, h3]

/-- On the all-ones stream with `max = 3` the rejection loop never exits
from the all-ones candidate state: every candidate `2^k - 1` lies in the
biased zone, and at the cap `r` maps back to `2^28 - 1`. -/
theorem loop2_allones_none :
    ∀ (m k : Nat), 2 ≤ k → k ≤ 28 →
      loop2 3 (List.replicate m true) (2 ^ k - 1) (2 ^ k) (2 ^ k % 3) = none := by
  intro m
  induction m with
  | zero =>
    intro k hk2 hk28
    have hp : 1 ≤ 2 ^ k := Nat.one_le_two_pow
    have hm3 := two_pow_mod_three k
    have hcond : 2 ^ k - 2 ^ k % 3 ≤ 2 ^ k - 1 := by omega
    simp only [List.replicate, loop2, if_pos hcond]
  | succ m ih =>
    intro k hk2 hk28
    have hp : 1 ≤ 2 ^ k := Nat.one_le_two_pow
    have hm3 := two_pow_mod_three k
    have hcond : 2 ^ k - 2 ^ k % 3 ≤ 2 ^ k - 1 := by omega
    rw [List.replicate_succ]
    simp only [loop2, if_pos hcond, if_true]
    by_cases hcap : k < 28
    · have hklt : 2 ^ k < 1 <<< MAX_RAND_BITS := by
        rw [lt_cap_iff]
        exact Nat.pow_lt_pow_right one_lt_two hcap
      rw [if_pos hklt]
      have hmod : (2 ^ k <<< 1) % U32 = 2 ^ (k + 1) := by
        rw [Nat.shiftLeft_eq, pow_one, ← pow_succ]
        exact Nat.mod_eq_of_lt (Nat.pow_lt_pow_right one_lt_two (by omega))
      rw [hmod, pred_pow_or_pow]
      exact ih (k + 1) (by omega) (by omega)
    · have hkk : k = 28 := by omega
      subst hkk
      rw [if_neg cap_not_lt, pred_pow_or_pow]
      have hsh : (2 ^ 29 - 1) >>> 1 = 2 ^ 28 - 1 := by
        rw [Nat.shiftRight_eq_div_pow, pow_one]
        norm_num
      rw [hsh]
      exact ih 28 (by omega) le_rfl

/-- On the all-ones stream, `secure_random 3` never returns. -/
theorem secure_random_three_allones (m : Nat) :
    secure_random 3 (List.replicate (m + 2) true) = .needBits := by
  have hl2 := loop2_allones_none m 2 (by omega) (by omega)
  norm_num at hl2
  have hl1 : loop1 3 (List.replicate (m + 2) true) 0 1 =
      some (3, 4, List.replicate m true) := by
    rw [List.replicate_succ, List.replicate_succ]
    have h0 : loop1 3 (true :: true :: List.replicate m true) 0 1 =
        loop1 3 (List.replicate m true) 3 4 := rfl
    rw [h0]
    exact loop1_done 3 _ 3 4 (by omega)
  unfold secure_random
  rw [if_neg (by omega)]
  simp only [hl1]
  norm_num
  simp only [hl2]

/-- C3 counterexample: on the all-ones entropy stream, `secure_random 3`
never returns however many bits are supplied — once the width cap is
reached the candidate sticks at `2^28 - 1`, which is always rejected. -/
theorem secure_random_allones_diverges :
    ¬ ∃ (n v : Nat) (rest : List Bool),
        secure_random 3 (List.replicate n true) = .ok v rest := by
  rintro ⟨n, v, rest, h⟩
  rcases n with - | n
  · have he : secure_random 3 (List.replicate 0 true) = .needBits := rfl
    rw [he] at h
    exact SampleResult.noConfusion h
  · rcases n with - | m
    · have he : secure_random 3 (List.replicate 1 true) = .needBits := rfl
      rw [he] at h
      exact SampleResult.noConfusion h
    · rw [secure_random_three_allones m] at h
      exact SampleResult.noConfusion h

/-! ### Fisher-Yates shuffle -/

/-- Moving the `j`-th element of a list to the front while writing `x` at
position `j` is a permutation of putting `x` at the front. -/
theorem getD_cons_set_perm (x : Card) :
    ∀ (t : List Card) (j : Nat), j < t.length →
      List.Perm (t.getD j default :: t.set j x) (x :: t) := by
  intro t
  induction t with
  | nil =>
    intro j hj
    simp at hj
  | cons b u ih =>
    intro j hj
    cases j with
    | zero =>
      simp only [List.getD_cons_zero, List.set_cons_zero]
      exact List.Perm.swap x b u
    | succ j =>
      simp only [List.getD_cons_succ, List.set_cons_succ]
      refine List.Perm.trans (List.Perm.swap b (u.getD j default) (u.set j x)) ?_
      refine List.Perm.trans (List.Perm.cons b (ih j (by simpa using hj))) ?_
      exact List.Perm.swap x b u

/-- The three-assignment swap permutes the deck. -/
theorem swapL_perm :
    ∀ (deck : List Card) (i j : Nat), i < deck.length → j < deck.length →
      List.Perm (swapL deck i j) deck := by
  intro deck
  induction deck with
  | nil =>
    intro i j hi _
    simp at hi
  | cons a t ih =>
    intro i j hi hj
    cases i with
    | zero =>
      cases j with
      | zero =>
        simp only [swapL, List.getD_cons_zero, List.set_cons_zero]
        exact List.Perm.refl _
      | succ j =>
        simp only [swapL, List.getD_cons_succ, List.getD_cons_zero, List.set_cons_zero,
          List.set_cons_succ]
        exact getD_cons_set_perm a t j (by simpa using hj)
    | succ i =>
      cases j with
      | zero =>
        simp only [swapL, List.getD_cons_zero, List.getD_cons_succ, List.set_cons_succ,
          List.set_cons_zero]
        exact getD_cons_set_perm a t i (by simpa using hi)
      | succ j =>
        simp only [swapL, List.getD_cons_succ, List.set_cons_succ]
        exact List.Perm.cons a (ih i j (by simpa using hi) (by simpa using hj))

theorem swapL_length (deck : List Card) (i j : Nat) :
    (swapL deck i j).length = deck.length := by
  simp [swapL]

/-- A successful run of the shuffle loop from index `n` permutes the deck. -/
theorem shuffleFrom_perm :
    ∀ (n : Nat) (deck : List Card) (bits : List Bool) (deck2 : List Card) (rest : List Bool),
      n < deck.length → shuffleFrom n deck bits = .ok deck2 rest →
      List.Perm deck2 deck := by
  intro n
  induction n with
  | zero =>
    intro deck bits deck2 rest _ h
    simp only [shuffleFrom] at h
    obtain ⟨rfl, rfl⟩ : deck = deck2 ∧ bits = rest := by simpa using h
    exact List.Perm.refl _
  | succ n ih =>
    intro deck bits deck2 rest hlen h
    simp only [shuffleFrom] at h
    split at h
    · exact ShuffleResult.noConfusion h
    · exact ShuffleResult.noConfusion h
    · rename_i j rest1 he
      have hj : j < n + 2 := secure_random_lt (n + 2) bits j rest1 (by omega) he
      have hl : (swapL deck (n + 1) j).length = deck.length := swapL_length deck (n + 1) j
      have hperm := ih (swapL deck (n + 1) j) rest1 deck2 rest (by omega) h
      exact List.Perm.trans hperm (swapL_perm deck (n + 1) j hlen (by omega))

/-- A successful run of the shuffle loop from index `n` performs exactly
`n` draw-and-swap steps. -/
theorem shuffleFrom_draws :
    ∀ (n : Nat) (deck : List Card) (bits : List Bool) (deck2 : List Card) (rest : List Bool),
      shuffleFrom n deck bits = .ok deck2 rest → shuffleDraws n deck bits = some n := by
  intro n
  induction n with
  | zero =>
    intro deck bits deck2 rest h
    rfl
  | succ n ih =>
    intro deck bits deck2 rest h
    simp only [shuffleFrom] at h
    split at h
    · exact ShuffleResult.noConfusion h
    · exact ShuffleResult.noConfusion h
    · rename_i j rest1 he
      simp only [shuffleDraws, he]
      rw [ih _ _ _ _ h]
      rfl

/-- C5: a successful `shuffle_deck` run on a 52-card deck iterates
`i = 51, 50, ..., 1` drawing `j = secure_random (i+1)` (a value in
`[0, i]`, by `secure_random_lt`), performs exactly `51 = N-1` swaps, and
produces a deck that is a permutation of the input (same multiset, same
length), with no other effect on the deck. -/
theorem shuffle_deck_is_perm (deck : List Card) (bits : List Bool) (deck2 : List Card)
    (rest : List Bool) (hlen : deck.length = 52)
    (h : shuffle_deck deck bits = .ok deck2 rest) :
    List.Perm deck2 deck ∧ deck2.length = 52 ∧
      shuffleDraws (DECK_SIZE - 1) deck bits = some 51 := by
  have h51 : shuffleFrom 51 deck bits = .ok deck2 rest := h
  have hperm := shuffleFrom_perm 51 deck bits deck2 rest (by omega) h51
  refine ⟨hperm, ?_, ?_⟩
  · rw [hperm.length_eq, hlen]
  · exact shuffleFrom_draws 51 deck bits deck2 rest h51

/-- Witness for C5: a 52-card deck shuffled with 249 zero bits (each draw
returns 0 and consumes `clog 2 (i+1)` bits; `Σ = 249`). -/
theorem shuffle_deck_is_perm_witness :
    ((List.replicate 52 (Card.mk 'S' 'A')).length = 52 ∧
      shuffle_deck (List.replicate 52 (Card.mk 'S' 'A')) (List.replicate 249 false) =
        .ok (List.replicate 52 (Card.mk 'S' 'A')) []) ∧
      (List.Perm (List.replicate 52 (Card.mk 'S' 'A')) (List.replicate 52 (Card.mk 'S' 'A')) ∧
        (List.replicate 52 (Card.mk 'S' 'A')).length = 52 ∧
        shuffleDraws (DECK_SIZE - 1) (List.replicate 52 (Card.mk 'S' 'A'))
          (List.replicate 249 false) = some 51) := by
  have he : shuffle_deck (List.replicate 52 (Card.mk 'S' 'A')) (List.replicate 249 false) =
      .ok (List.replicate 52 (Card.mk 'S' 'A')) [] := by decide
  exact ⟨⟨by decide, he⟩,
    shuffle_deck_is_perm (List.replicate 52 (Card.mk 'S' 'A')) (List.replicate 249 false)
      (List.replicate 52 (Card.mk 'S' 'A')) [] (by decide) he⟩

/-! ### The entropy buffer -/

theorem getD_set_same (l : List Nat) (i a : Nat) (h : i < l.length) :
    (l.set i a).getD i 0 = a := by
  simp [List.getD_eq_getElem?_getD, List.getElem?_set_self h]

theorem getD_set_other (l : List Nat) (i j a : Nat) (h : i ≠ j) :
    (l.set i a).getD j 0 = l.getD j 0 := by
  simp [List.getD_eq_getElem?_getD, List.getElem?_set_ne h]

/-- One `secure_random_bit` call under the buffer invariant: no refill
happens, the emitted bit is bit `k % 32` of word `k / 32`, and the
invariant advances to `k + 1`. -/
theorem emit_step (words : List Nat) (m k : Nat) (st : EntropyState) (src : List ReadEvent)
    (hm : m ≤ words.length) (hk : k < 32 * m) (hinv : BufInv words m k st) :
    ∃ st2, secure_random_bit st src = .ok (bitAt words k) st2 src ∧
      BufInv words m (k + 1) st2 := by
  obtain ⟨hmax, hwinx, hbcnt, hlen, hbuf⟩ := hinv
  have hdiv : k / 32 < m := by omega
  have hne : ¬ st.winx = st.max_winx := by omega
  have hw2 : st.rand_buf.getD (k / 32) 0 = words.getD (k / 32) 0 >>> (k % 32) := by
    simpa using hbuf (k / 32) le_rfl
  have hw : st.rand_buf.getD st.winx 0 = words.getD (k / 32) 0 >>> (k % 32) := by
    rw [hwinx]
    exact hw2
  have hbit : st.rand_buf.getD st.winx 0 &&& 1 = bitAt words k := by
    rw [hw]
    rfl
  have hlen2 : st.winx < st.rand_buf.length := by omega
  unfold secure_random_bit
  rw [if_neg hne]
  unfold emitBit
  by_cases h31 : k % 32 = 31
  · have hcond : st.bcnt + 1 = WORD_BITS := by
      show st.bcnt + 1 = 32
      omega
    rw [if_pos hcond, hbit]
    refine ⟨_, rfl, hmax, ?_, ?_, ?_, ?_⟩
    · show st.winx + 1 = (k + 1) / 32
      omega
    · show (0 : Nat) = (k + 1) % 32
      omega
    · show (st.rand_buf.set st.winx _).length = words.length
      rw [List.length_set, hlen]
    · intro j hj
      show (st.rand_buf.set st.winx (st.rand_buf.getD st.winx 0 >>> 1)).getD j 0 = _
      rw [getD_set_other _ _ _ _ (show st.winx ≠ j by omega)]
      rw [hbuf j (by omega), if_neg (show ¬ j = k / 32 by omega)]
      by_cases hje : j = (k + 1) / 32
      · rw [if_pos hje, show (k + 1) % 32 = 0 by omega, Nat.shiftRight_zero]
      · rw [if_neg hje]
  · have hcond : ¬ (st.bcnt + 1 = WORD_BITS) := by
      show ¬ (st.bcnt + 1 = 32)
      omega
    rw [if_neg hcond, hbit]
    refine ⟨_, rfl, hmax, ?_, ?_, ?_, ?_⟩
    · show st.winx = (k + 1) / 32
      omega
    · show st.bcnt + 1 = (k + 1) % 32
      omega
    · show (st.rand_buf.set st.winx _).length = words.length
      rw [List.length_set, hlen]
    · intro j hj
      show (st.rand_buf.set st.winx (st.rand_buf.getD st.winx 0 >>> 1)).getD j 0 = _
      by_cases hje : j = k / 32
      · subst hje
        rw [hwinx, getD_set_same _ _ _ (by omega), hw2]
        rw [if_pos (show k / 32 = (k + 1) / 32 by omega)]
        rw [← Nat.shiftRight_add]
        congr 1
        omega
      · rw [getD_set_other _ _ _ _ (show st.winx ≠ j by omega)]
        rw [hbuf j (by omega), if_neg hje, if_neg (show ¬ j = (k + 1) / 32 by omega)]

/-- Shifting an indexed `range` map by one step. -/
theorem range_map_shift (f : Nat → Nat) (k n : Nat) :
    (List.range (n + 1)).map (fun t => f (k + t)) =
      f k :: (List.range n).map (fun t => f (k + 1 + t)) := by
  rw [List.range_succ_eq_map]
  simp only [List.map_cons, List.map_map, Nat.add_zero]
  congr 1
  congr 1
  funext t
  simp only [Function.comp_apply]
  congr 1
  omega

/-- Consuming `n` bits under the buffer invariant yields bits
`k, k+1, ..., k+n-1` in order, touching no read event. -/
theorem consume_run (words : List Nat) (m : Nat) (hm : m ≤ words.length) :
    ∀ (n k : Nat) (st : EntropyState) (src : List ReadEvent),
      k + n ≤ 32 * m → BufInv words m k st →
      ∃ st2, consumeBits n st src =
          some ((List.range n).map (fun t => bitAt words (k + t)), st2, src) ∧
        BufInv words m (k + n) st2 := by
  intro n
  induction n with
  | zero =>
    intro k st src hkn hinv
    exact ⟨st, by simp [consumeBits], by simpa using hinv⟩
  | succ n ih =>
    intro k st src hkn hinv
    obtain ⟨st1, hstep, hinv1⟩ := emit_step words m k st src hm (by omega) hinv
    obtain ⟨st2, hrun, hinv2⟩ := ih (k + 1) st1 src (by omega) hinv1
    refine ⟨st2, ?_, by simpa [show k + 1 + n = k + (n + 1) by omega] using hinv2⟩
    simp only [consumeBits, hstep, hrun]
    rw [range_map_shift (bitAt words) k n]

/-- From a freshly refilled buffer of `m` valid words, the next `32 * m`
calls emit exactly the buffered bits in order without touching the source,
ending with `winx = max_winx`. -/
theorem consume_fresh (words : List Nat) (m : Nat) (src : List ReadEvent)
    (hm : m ≤ words.length) :
    ∃ st2,
      consumeBits (32 * m) { rand_buf := words, max_winx := m, winx := 0, bcnt := 0 } src =
        some (bitSeq words (32 * m), st2, src) ∧
      st2.winx = st2.max_winx ∧ st2.max_winx = m := by
  have hinv0 : BufInv words m 0 { rand_buf := words, max_winx := m, winx := 0, bcnt := 0 } := by
    refine ⟨rfl, rfl, rfl, rfl, ?_⟩
    intro j hj
    by_cases hje : j = 0 / 32
    · rw [if_pos hje]
      simp
    · rw [if_neg hje]
  obtain ⟨st2, hrun, hinv⟩ := consume_run words m hm (32 * m) 0 _ src (by omega) hinv0
  obtain ⟨hmax, hwinx, -, -, -⟩ := hinv
  refine ⟨st2, ?_, by omega, hmax⟩
  rw [hrun]
  have hfun : (fun t => bitAt words (0 + t)) = bitAt words := by
    funext t
    rw [Nat.zero_add]
  rw [hfun]
  rfl

/-- C7: from a freshly refilled buffer of `m` valid words, successive
`secure_random_bit` calls return the buffered bits in strict order — bit 0
of word 0 (LSB first), ..., bit 31 of word 0, bit 0 of word 1, ... — with
no read from the source during those `32 * m` calls (refill never happens
early); afterwards `winx = max_winx`, so the very next call goes to the
source (refill happens exactly then). -/
theorem entropy_bits_in_order (words : List Nat) (m : Nat) (src : List ReadEvent)
    (hm : m ≤ words.length) :
    ∃ st2,
      consumeBits (32 * m) { rand_buf := words, max_winx := m, winx := 0, bcnt := 0 } src =
        some (bitSeq words (32 * m), st2, src) ∧
      st2.winx = st2.max_winx ∧ st2.max_winx = m ∧
      secure_random_bit st2 [] = .noSource := by
  obtain ⟨st2, hrun, hwm, hm2⟩ := consume_fresh words m src hm
  refine ⟨st2, hrun, hwm, hm2, ?_⟩
  unfold secure_random_bit
  rw [if_pos hwm]

/-- Witness for C7 with one valid word `6 = 0b110`. -/
theorem entropy_bits_in_order_witness :
    1 ≤ [(6 : Nat)].length ∧
      ∃ st2,
        consumeBits (32 * 1) { rand_buf := [6], max_winx := 1, winx := 0, bcnt := 0 }
            ([] : List ReadEvent) = some (bitSeq [6] (32 * 1), st2, []) ∧
        st2.winx = st2.max_winx ∧ st2.max_winx = 1 ∧
        secure_random_bit st2 [] = .noSource :=
  ⟨by decide, entropy_bits_in_order [6] 1 [] (by decide)⟩

/-- C8: when a refill is due (`winx = max_winx`), an `open` failure or a
read returning fewer bytes than one 4-byte word terminates the process
(modelled by `.fatal`, the embedding of `exit(1)` after a diagnostic):
no bit is returned and no retry or fallback path exists. -/
theorem entropy_source_failure_fatal (st : EntropyState) (rv : Int) (data : List Nat)
    (rest : List ReadEvent) (hrefill : st.winx = st.max_winx)
    (hshort : rv < (WORD_BYTES : Int)) :
    secure_random_bit st (ReadEvent.openFail :: rest) = .fatal ∧
    secure_random_bit st (ReadEvent.readData rv data :: rest) = .fatal := by
  constructor
  · unfold secure_random_bit
    rw [if_pos hrefill]
  · unfold secure_random_bit
    rw [if_pos hrefill]
    simp [hshort]

/-- Witness for C8: empty buffer state, failed `open`, and a read returning
`-1` bytes. -/
theorem entropy_source_failure_fatal_witness :
    ((0 : Nat) = (0 : Nat) ∧ (-1 : Int) < (WORD_BYTES : Int)) ∧
      (secure_random_bit { rand_buf := [], max_winx := 0, winx := 0, bcnt := 0 }
          (ReadEvent.openFail :: []) = .fatal ∧
        secure_random_bit { rand_buf := [], max_winx := 0, winx := 0, bcnt := 0 }
          (ReadEvent.readData (-1) [] :: []) = .fatal) :=
  ⟨⟨rfl, by decide⟩,
    entropy_source_failure_fatal { rand_buf := [], max_winx := 0, winx := 0, bcnt := 0 }
      (-1) [] [] rfl (by decide)⟩

/-- C10: a refill read of `rv` bytes with `4 ≤ rv` sets the valid word
count to `⌊rv/4⌋`; the following `32 * ⌊rv/4⌋` bit calls emit exactly the
bits of data words `0 .. ⌊rv/4⌋ - 1` in order — the trailing `rv mod 4`
bytes are never emitted — and only after those is `winx = max_winx` again,
so the next refill happens after exactly `32 * ⌊rv/4⌋` bits. -/
theorem refill_discards_partial_word (st : EntropyState) (rv : Int) (data : List Nat)
    (src : List ReadEvent) (hrefill : st.winx = st.max_winx)
    (hrv : (WORD_BYTES : Int) ≤ rv) (hlen : rv.toNat / 4 ≤ data.length) :
    ∃ st2,
      consumeBits (32 * (rv.toNat / 4)) st (ReadEvent.readData rv data :: src) =
        some (bitSeq data (32 * (rv.toNat / 4)), st2, src) ∧
      st2.winx = st2.max_winx ∧ st2.max_winx = rv.toNat / 4 := by
  have hq1 : 1 ≤ rv.toNat / 4 := by
    have : (4 : Int) ≤ rv := by
      simpa [WORD_BYTES] using hrv
    omega
  have hfirst : secure_random_bit st (ReadEvent.readData rv data :: src) =
      emitBit { rand_buf := data, max_winx := rv.toNat / 4, winx := 0, bcnt := 0 } src := by
    unfold secure_random_bit
    rw [if_pos hrefill]
    simp only [if_neg (not_lt.mpr hrv)]
    rfl
  have hfresh : secure_random_bit
        { rand_buf := data, max_winx := rv.toNat / 4, winx := 0, bcnt := 0 } src =
      emitBit { rand_buf := data, max_winx := rv.toNat / 4, winx := 0, bcnt := 0 } src := by
    unfold secure_random_bit
    rw [if_neg (by simp; omega)]
  obtain ⟨n, hn⟩ : ∃ n, 32 * (rv.toNat / 4) = n + 1 := ⟨32 * (rv.toNat / 4) - 1, by omega⟩
  obtain ⟨st2, hrun, hwm, hm2⟩ := consume_fresh data (rv.toNat / 4) src hlen
  refine ⟨st2, ?_, hwm, hm2⟩
  rw [hn] at hrun ⊢
  simp only [consumeBits] at hrun ⊢
  rw [hfirst]
  rw [hfresh] at hrun
  exact hrun

/-- Witness for C10: a 5-byte read (`⌊5/4⌋ = 1` valid word, one byte
discarded). -/
theorem refill_discards_partial_word_witness :
    ((0 : Nat) = (0 : Nat) ∧ (WORD_BYTES : Int) ≤ (5 : Int) ∧
      (5 : Int).toNat / 4 ≤ [(3 : Nat)].length) ∧
      ∃ st2,
        consumeBits (32 * ((5 : Int).toNat / 4))
            { rand_buf := [], max_winx := 0, winx := 0, bcnt := 0 }
            (ReadEvent.readData 5 [3] :: []) =
          some (bitSeq [3] (32 * ((5 : Int).toNat / 4)), st2, []) ∧
        st2.winx = st2.max_winx ∧ st2.max_winx = (5 : Int).toNat / 4 :=
  ⟨⟨rfl, by decide, by decide⟩,
    refill_discards_partial_word { rand_buf := [], max_winx := 0, winx := 0, bcnt := 0 }
      5 [3] [] rfl (by decide) (by decide)⟩

end CardServer
